import Mathlib

/-!
Verification of the Merkle batch-commit core of `src/index.ts`.

The program buffers block headers; every `batchSize` headers it builds a
Merkle tree (via the merkletreejs library with its default options:
`sortLeaves = false`, `sortPairs = false`, `duplicateOdd = false`,
`isBitcoinTree = false`, `hashLeaves = false`) over the leaves
`crypto.SHA256(header.hash)` and appends it to `merkleTrees`.  Proofs are
generated and verified with `tree.getProof` / `tree.verify`.

The embedding below renders the byte level faithfully:

* a byte buffer is a `List Nat`;
* `crypto.SHA256` is an uninterpreted parameter `H : Bytes → Bytes`
  (every theorem holds for the real SHA-256 as an instance);
* a crypto-js `WordArray` is abstracted by the byte sequence it denotes, and
  merkletreejs's `bufferify` of a WordArray — `Buffer.from(x.toString(hex),
  'hex')` — is rendered as `hexDecode (hexEncode bytes)`, the nibble
  round-trip;
* the stateful `MerkleFactory` becomes explicit state passing;
* the merkletreejs `while (nodes.length > 1)` loop of `_createHashes` becomes
  a fuel recursion (`buildAux`), with fuel `nodes.length`, which provably
  bounds the number of iterations since each level strictly shrinks.
-/

/-- A byte buffer (a Node.js `Buffer` / the byte content of a crypto-js
`WordArray`), as a list of byte values. -/
abbrev Bytes := List Nat

/-- The byte content of a JS string (the argument fed to `crypto.SHA256`). -/
def strBytes (s : String) : Bytes :=
  s.data.map Char.toNat

/-- Hex encoding of a byte buffer as the sequence of its nibbles
(`WordArray.toString(crypto.enc.Hex)`): each byte contributes its high and
low nibble in order. -/
def hexEncode (bs : Bytes) : List Nat :=
  bs.flatMap (fun b => [b / 16, b % 16])

/-- Hex decoding (`Buffer.from(str, 'hex')`): consecutive nibble pairs are
reassembled into bytes; a trailing lone nibble is dropped, as Node does. -/
def hexDecode : List Nat → Bytes
  | a :: b :: rest => (a * 16 + b) :: hexDecode rest
  | _ => []

/-- merkletreejs `bufferify` applied to a crypto-js `WordArray`:
`Buffer.from(wordArray.toString(hex), 'hex')`. -/
def bufferifyWA (wa : Bytes) : Bytes :=
  hexDecode (hexEncode wa)

theorem hexDecode_hexEncode (bs : Bytes) : hexDecode (hexEncode bs) = bs := by
  induction bs with
  | nil => rfl
  | cons b rest ih =>
    simp only [hexEncode, List.flatMap_cons, List.cons_append, List.nil_append]
    show (b / 16 * 16 + b % 16) :: hexDecode (hexEncode rest) = b :: rest
    have hb : b / 16 * 16 + b % 16 = b := by omega
    rw [hb, ih]

theorem bufferifyWA_eq (wa : Bytes) : bufferifyWA wa = wa :=
  hexDecode_hexEncode wa

/-- The internal hash step of the tree: merkletreejs concatenates the two
buffers and applies the (bufferified) hash function, `hash = hashFn(left ‖
right)`; pairs are never sorted (`sortPairs = false`). -/
def hashPair (H : Bytes → Bytes) (l r : Bytes) : Bytes :=
  bufferifyWA (H (l ++ r))

/-- One level of merkletreejs `_createHashes` with the default
`duplicateOdd = false`: adjacent nodes are paired left-to-right,
`node[2i]` with `node[2i+1]`; a lone final node of an odd-length level is
pushed to the next level unchanged. -/
def nextLevel (H : Bytes → Bytes) : List Bytes → List Bytes
  | [] => []
  | [x] => [x]
  | x :: y :: rest => hashPair H x y :: nextLevel H rest

theorem nextLevel_length (H : Bytes → Bytes) :
    ∀ l : List Bytes, (nextLevel H l).length = (l.length + 1) / 2
  | [] => by simp [nextLevel]
  | [_] => by simp [nextLevel]
  | _ :: _ :: rest => by
    simp only [nextLevel, List.length_cons, nextLevel_length H rest]
    omega

/-- Position of a node's value at the next level: index `k` of `nextLevel l`
holds the pair hash of `l[2k]` and `l[2k+1]` when both exist, and the
carried-over `l[2k]` itself when `2k` is the lone last index. -/
theorem nextLevel_getD (H : Bytes → Bytes) :
    ∀ (l : List Bytes) (k : Nat), 2 * k < l.length →
      (nextLevel H l).getD k [] =
        if 2 * k + 1 < l.length then
          hashPair H (l.getD (2 * k) []) (l.getD (2 * k + 1) [])
        else l.getD (2 * k) []
  | [], k, h => by simp at h
  | [x], k, h => by
    simp only [List.length_cons, List.length_nil] at h
    have hk : k = 0 := by omega
    subst hk
    simp [nextLevel]
  | x :: y :: rest, k, h => by
    match k with
    | 0 =>
      have : 2 * 0 + 1 < (x :: y :: rest).length := by
        simp only [List.length_cons]
        omega
      simp [nextLevel, this]
    | k + 1 =>
      have hrest : 2 * k < rest.length := by
        simp only [List.length_cons] at h; omega
      have ih := nextLevel_getD H rest k hrest
      have h2 : 2 * (k + 1) = 2 * k + 1 + 1 := by omega
      simp only [nextLevel, h2, List.getD_cons_succ]
      rw [ih]
      by_cases hlt : 2 * k + 1 < rest.length
      · have : 2 * k + 1 + 1 + 1 < (x :: y :: rest).length := by
          simp only [List.length_cons]; omega
        simp [hlt, this]
      · have : ¬ (2 * k + 1 + 1 + 1 < (x :: y :: rest).length) := by
          simp only [List.length_cons]; omega
        simp [hlt, this]

/-- The layers above the leaves, as built by the `while (nodes.length > 1)`
loop of merkletreejs `_createHashes`; `fuel` bounds the number of loop
iterations (the initial node count always suffices, see `buildAux_fuel`). -/
def buildAux (H : Bytes → Bytes) : Nat → List Bytes → List (List Bytes)
  | 0, _ => []
  | fuel + 1, nodes =>
    if nodes.length ≤ 1 then []
    else
      nextLevel H nodes :: buildAux H fuel (nextLevel H nodes)

/-- Any fuel at least the node count produces the same layers: the loop
terminates within `nodes.length` iterations. -/
theorem buildAux_fuel (H : Bytes → Bytes) :
    ∀ (fuel fuel' : Nat) (nodes : List Bytes),
      nodes.length ≤ fuel → nodes.length ≤ fuel' →
      buildAux H fuel nodes = buildAux H fuel' nodes := by
  intro fuel
  induction fuel with
  | zero =>
    intro fuel' nodes h h'
    have hn : nodes = [] := List.eq_nil_of_length_eq_zero (by omega)
    subst hn
    cases fuel' with
    | zero => rfl
    | succ f => simp [buildAux]
  | succ fuel ih =>
    intro fuel' nodes h h'
    match fuel' with
    | 0 =>
      have hn : nodes = [] := List.eq_nil_of_length_eq_zero (by omega)
      subst hn
      simp [buildAux]
    | fuel'' + 1 =>
      simp only [buildAux]
      by_cases hle : nodes.length ≤ 1
      · simp [hle]
      · simp only [hle, if_false]
        have hlen : (nextLevel H nodes).length = (nodes.length + 1) / 2 :=
          nextLevel_length H nodes
        have h1 : (nextLevel H nodes).length ≤ fuel := by omega
        have h2 : (nextLevel H nodes).length ≤ fuel'' := by omega
        rw [ih fuel'' (nextLevel H nodes) h1 h2]

/-- A merkletreejs `MerkleTree` as the program constructs it: the stored
(bufferified) leaves and the full layer list `layers = [leaves, ...]`. -/
structure MerkleTreeM where
  leaves : List Bytes
  layers : List (List Bytes)
deriving DecidableEq, Repr

/-- `new MerkleTree(leaves, SHA256)` with default options: the incoming
WordArray leaves are bufferified (`hashLeaves = false`, `sortLeaves =
false`), become layer 0, and `_createHashes` stacks the levels above. -/
def mkMerkleTree (H : Bytes → Bytes) (leaves : List Bytes) : MerkleTreeM :=
  let bl := leaves.map bufferifyWA
  { leaves := bl, layers := bl :: buildAux H bl.length bl }

/-- `tree.getRoot()`: the single node of the topmost layer, or the empty
buffer when the tree is degenerate. -/
def MerkleTreeM.getRoot (t : MerkleTreeM) : Bytes :=
  match t.layers.getLast? with
  | some layer => layer.headD []
  | none => []

/-- First index of a leaf buffer in a list of stored leaves, as the scan in
merkletreejs `getLeafIndex` computes it (it returns at the first match). -/
def idxOfAux : List Bytes → Bytes → Option Nat
  | [], _ => none
  | x :: rest, leaf =>
    if x = leaf then some 0 else (idxOfAux rest leaf).map (· + 1)

/-- `tree.getLeafIndex(leaf)`: index of the first stored leaf equal to the
target, `-1` when absent. -/
def MerkleTreeM.getLeafIndex (t : MerkleTreeM) (leaf : Bytes) : Int :=
  match idxOfAux t.leaves leaf with
  | some i => (i : Int)
  | none => -1

/-- Last index of a leaf buffer among the stored leaves: merkletreejs
`getProof` locates the target with a scan that keeps overwriting the index
on every match, so the final match wins. -/
def lastIdxAux : List Bytes → Bytes → Option Nat
  | [], _ => none
  | x :: rest, leaf =>
    match lastIdxAux rest leaf with
    | some j => some (j + 1)
    | none => if x = leaf then some 0 else none

/-- A proof element as merkletreejs produces it: the sibling digest and the
side that sibling occupies relative to the current node. -/
inductive Side where
  | left : Side
  | right : Side
deriving DecidableEq, Repr

structure ProofElem where
  position : Side
  data : Bytes
deriving DecidableEq, Repr

/-- The per-layer loop of merkletreejs `getProof` (`isBitcoinTree = false`):
at each layer, a node at odd index records its left neighbour with position
`left`, a node at even index records its right neighbour with position
`right` when that neighbour exists — the lone last node of an odd layer
records nothing — and the walk continues one level up at index `idx / 2`.
The iteration covers every stored layer, leaf layer included. -/
def proofLoop : List (List Bytes) → Nat → List ProofElem
  | [], _ => []
  | layer :: rest, idx =>
    let isRight := idx % 2 == 1
    let pairIndex := if isRight then idx - 1 else idx + 1
    let tail := proofLoop rest (idx / 2)
    if pairIndex < layer.length then
      { position := if isRight then Side.left else Side.right,
        data := layer.getD pairIndex [] } :: tail
    else tail

/-- `tree.getProof(leaf)` without an explicit index: locate the leaf (last
match wins), return `[]` when absent, else walk the layers. -/
def MerkleTreeM.getProof (t : MerkleTreeM) (leaf : Bytes) : List ProofElem :=
  match lastIdxAux t.leaves leaf with
  | none => []
  | some idx => proofLoop t.layers idx

/-- The fold at the heart of merkletreejs `verify` (`sortPairs = false`):
starting from the leaf digest, each proof element is absorbed on the side it
records — `hashFn(data ‖ acc)` for a left sibling, `hashFn(acc ‖ data)` for
a right sibling. -/
def foldProof (H : Bytes → Bytes) (leaf : Bytes) (proof : List ProofElem) : Bytes :=
  proof.foldl
    (fun acc e =>
      match e.position with
      | Side.left => hashPair H e.data acc
      | Side.right => hashPair H acc e.data)
    leaf

/-- `tree.verify(proof, leaf, root)`: fold the proof from the leaf and
compare the result with the supplied root byte-for-byte. -/
def MerkleTreeM.verify (H : Bytes → Bytes) (_t : MerkleTreeM)
    (proof : List ProofElem) (leaf root : Bytes) : Bool :=
  decide (foldProof H leaf proof = root)

/-- The `BlockHeader` record of `src/index.ts`. -/
structure BlockHeader where
  number : Nat
  hash : String
  parentHash : String
  stateRoot : String
  extrinsicsRoot : String
deriving DecidableEq, Repr

/-- `crypto.SHA256(header.hash)`: the leaf value as the WordArray digest of
the header's `hash` string field. -/
def leafWA (H : Bytes → Bytes) (h : BlockHeader) : Bytes :=
  H (strBytes h.hash)

/-- The leaf buffer recomputed at proof/verification time:
`Buffer.from(crypto.SHA256(header.hash).toString(crypto.enc.Hex), 'hex')`. -/
def leafBuf (H : Bytes → Bytes) (h : BlockHeader) : Bytes :=
  hexDecode (hexEncode (leafWA H h))

/-- The mutable state of a `MerkleFactory` instance. -/
structure MerkleFactory where
  batchSize : Int
  headers : List BlockHeader
  merkleTrees : List MerkleTreeM
deriving Repr

/-- The `MerkleFactory` class constructor: it stores the given `batchSize`
verbatim and starts with empty buffer and registry; the source performs no
validation of any kind. -/
def MerkleFactory.construct (batchSize : Int) : MerkleFactory :=
  { batchSize := batchSize, headers := [], merkleTrees := [] }

/-- `createMerkleTree()`: hash each buffered header's `hash` field, build
the merkletreejs tree over those leaves and append it to the registry. -/
def MerkleFactory.createMerkleTree (H : Bytes → Bytes) (f : MerkleFactory) :
    MerkleFactory :=
  let leaves := f.headers.map (leafWA H)
  let tree := mkMerkleTree H leaves
  { f with merkleTrees := f.merkleTrees ++ [tree] }

/-- `addHeader(header)`: push onto the working buffer; once the buffer
length reaches `batchSize` (the source compares with `>=`), build and
register the tree and clear the buffer. -/
def MerkleFactory.addHeader (H : Bytes → Bytes) (f : MerkleFactory)
    (h : BlockHeader) : MerkleFactory :=
  let f1 := { f with headers := f.headers ++ [h] }
  if (f1.headers.length : Int) ≥ f1.batchSize then
    let f2 := f1.createMerkleTree H
    { f2 with headers := [] }
  else f1

/-- `getMerkleTree(index)`: the registered tree at that index, or null. -/
def MerkleFactory.getMerkleTree (f : MerkleFactory) (index : Nat) :
    Option MerkleTreeM :=
  f.merkleTrees.get? index

/-- `generateProof(header)`: recompute the leaf buffer, linearly scan the
registered trees for the first whose leaves contain it (`Array.find`), and
return that tree's proof; an empty array signals that no tree contains the
leaf. -/
def MerkleFactory.generateProof (H : Bytes → Bytes) (f : MerkleFactory)
    (h : BlockHeader) : List ProofElem :=
  let leaf := leafBuf H h
  match f.merkleTrees.find? (fun t => t.getLeafIndex leaf != -1) with
  | none => []
  | some t => t.getProof leaf

/-- `verifyProof(proof, header)`: recompute the leaf buffer, locate the
containing tree with the same scan `generateProof` uses, and check the
proof against that tree's root; `false` when no tree contains the leaf. -/
def MerkleFactory.verifyProof (H : Bytes → Bytes) (f : MerkleFactory)
    (proof : List ProofElem) (h : BlockHeader) : Bool :=
  let leaf := leafBuf H h
  match f.merkleTrees.find? (fun t => t.getLeafIndex leaf != -1) with
  | none => false
  | some t => t.verify H proof leaf t.getRoot

/-- A whole run of the subscription callback loop: feed the headers to
`addHeader` one at a time, in arrival order, starting from a freshly
constructed factory. -/
def runFactory (H : Bytes → Bytes) (b : Int) (hs : List BlockHeader) :
    MerkleFactory :=
  hs.foldl (MerkleFactory.addHeader H) (MerkleFactory.construct b)

/-- Reference batching function used in theorem statements: split the
incoming stream into the successive full batches of `bn` headers (first
component) and the final partial buffer (second component), continuing from
a partially filled buffer `buf`. -/
def accumulate (bn : Nat) (buf : List BlockHeader) :
    List BlockHeader → List (List BlockHeader) × List BlockHeader
  | [] => ([], buf)
  | h :: rest =>
    let buf2 := buf ++ [h]
    if bn ≤ buf2.length then
      let r := accumulate bn [] rest
      (buf2 :: r.1, r.2)
    else accumulate bn buf2 rest

/-- The tree `createMerkleTree` builds from one full batch. -/
def treeOfBatch (H : Bytes → Bytes) (c : List BlockHeader) : MerkleTreeM :=
  mkMerkleTree H (c.map (leafWA H))

/-- The root read off a layer stack (the body of `getRoot`). -/
def layersRoot (layers : List (List Bytes)) : Bytes :=
  match layers.getLast? with
  | some layer => layer.headD []
  | none => []

theorem getRoot_eq_layersRoot (t : MerkleTreeM) :
    t.getRoot = layersRoot t.layers := rfl

theorem layersRoot_cons_cons (a b : List Bytes) (l : List (List Bytes)) :
    layersRoot (a :: b :: l) = layersRoot (b :: l) := by
  simp [layersRoot, List.getLast?_cons_cons]

theorem foldProof_cons_left (H : Bytes → Bytes) (leaf d : Bytes)
    (tail : List ProofElem) :
    foldProof H leaf ({ position := Side.left, data := d } :: tail)
      = foldProof H (hashPair H d leaf) tail := rfl

theorem foldProof_cons_right (H : Bytes → Bytes) (leaf d : Bytes)
    (tail : List ProofElem) :
    foldProof H leaf ({ position := Side.right, data := d } :: tail)
      = foldProof H (hashPair H leaf d) tail := rfl

/-- Core correctness of the layer walk: starting from the node stored at any
in-range index of the bottom level, folding the sibling path collected by
`proofLoop` over the layers reconstructs exactly the root, with the
merkletreejs carry-the-odd-node policy at every level. -/
theorem foldProof_proofLoop (H : Bytes → Bytes) :
    ∀ (fuel : Nat) (nodes : List Bytes) (idx : Nat),
      nodes.length ≤ fuel → idx < nodes.length →
      foldProof H (nodes.getD idx [])
          (proofLoop (nodes :: buildAux H fuel nodes) idx)
        = layersRoot (nodes :: buildAux H fuel nodes) := by
  intro fuel
  induction fuel with
  | zero =>
    intro nodes idx h hidx
    omega
  | succ fuel ih =>
    intro nodes idx h hidx
    by_cases hle : nodes.length ≤ 1
    · cases nodes with
      | nil => simp at hidx
      | cons x t =>
        cases t with
        | cons y t2 =>
          simp only [List.length_cons] at hle
          omega
        | nil =>
          have hidx0 : idx = 0 := by
            simp only [List.length_cons, List.length_nil] at hidx
            omega
          subst hidx0
          simp [buildAux, proofLoop, foldProof, layersRoot]
    · have hge2 : 2 ≤ nodes.length := by omega
      have hbuild : buildAux H (fuel + 1) nodes
          = nextLevel H nodes :: buildAux H fuel (nextLevel H nodes) := by
        simp [buildAux, hle]
      have hnl : (nextLevel H nodes).length = (nodes.length + 1) / 2 :=
        nextLevel_length H nodes
      have hfuel2 : (nextLevel H nodes).length ≤ fuel := by omega
      have hidx2 : idx / 2 < (nextLevel H nodes).length := by omega
      have ihx := ih (nextLevel H nodes) (idx / 2) hfuel2 hidx2
      rw [hbuild, layersRoot_cons_cons]
      rcases Nat.even_or_odd idx with he | ho
      · have h0 : idx % 2 = 0 := Nat.even_iff.mp he
        have hbeq : (idx % 2 == 1) = false := by simp [h0]
        by_cases hpair : idx + 1 < nodes.length
        · have hval : (nextLevel H nodes).getD (idx / 2) []
              = hashPair H (nodes.getD idx []) (nodes.getD (idx + 1) []) := by
            have e1 : 2 * (idx / 2) = idx := by omega
            have h2k : 2 * (idx / 2) < nodes.length := by omega
            have := nextLevel_getD H nodes (idx / 2) h2k
            rw [e1] at this
            rw [this, if_pos hpair]
          show foldProof H (nodes.getD idx [])
              (proofLoop (nodes :: nextLevel H nodes :: buildAux H fuel (nextLevel H nodes)) idx)
            = layersRoot (nextLevel H nodes :: buildAux H fuel (nextLevel H nodes))
          rw [proofLoop]
          simp only [hbeq, Bool.false_eq_true, if_false, if_pos hpair]
          rw [foldProof_cons_right, ← hval]
          exact ihx
        · have hval : (nextLevel H nodes).getD (idx / 2) []
              = nodes.getD idx [] := by
            have e1 : 2 * (idx / 2) = idx := by omega
            have h2k : 2 * (idx / 2) < nodes.length := by omega
            have := nextLevel_getD H nodes (idx / 2) h2k
            rw [e1] at this
            rw [this, if_neg hpair]
          show foldProof H (nodes.getD idx [])
              (proofLoop (nodes :: nextLevel H nodes :: buildAux H fuel (nextLevel H nodes)) idx)
            = layersRoot (nextLevel H nodes :: buildAux H fuel (nextLevel H nodes))
          rw [proofLoop]
          simp only [hbeq, Bool.false_eq_true, if_false, if_neg hpair]
          rw [← hval]
          exact ihx
      · have h1 : idx % 2 = 1 := Nat.odd_iff.mp ho
        have hbeq : (idx % 2 == 1) = true := by simp [h1]
        have hpair : idx - 1 < nodes.length := by omega
        have hval : (nextLevel H nodes).getD (idx / 2) []
            = hashPair H (nodes.getD (idx - 1) []) (nodes.getD idx []) := by
          have e1 : 2 * (idx / 2) = idx - 1 := by omega
          have e2 : 2 * (idx / 2) + 1 = idx := by omega
          have h2k : 2 * (idx / 2) < nodes.length := by omega
          have := nextLevel_getD H nodes (idx / 2) h2k
          rw [e1] at this
          have e3 : idx - 1 + 1 = idx := by omega
          rw [e3] at this
          rw [this, if_pos hidx]
        show foldProof H (nodes.getD idx [])
            (proofLoop (nodes :: nextLevel H nodes :: buildAux H fuel (nextLevel H nodes)) idx)
          = layersRoot (nextLevel H nodes :: buildAux H fuel (nextLevel H nodes))
        rw [proofLoop]
        simp only [hbeq, if_true, if_pos hpair]
        rw [foldProof_cons_left, ← hval]
        exact ihx

theorem lastIdxAux_some :
    ∀ (l : List Bytes) (leaf : Bytes) (i : Nat),
      lastIdxAux l leaf = some i → i < l.length ∧ l.getD i [] = leaf
  | [], leaf, i, h => by simp [lastIdxAux] at h
  | x :: rest, leaf, i, h => by
    simp only [lastIdxAux] at h
    cases hm : lastIdxAux rest leaf with
    | some j =>
      rw [hm] at h
      have hij : i = j + 1 := by
        simpa using h.symm
      subst hij
      have ⟨h1, h2⟩ := lastIdxAux_some rest leaf j hm
      refine ⟨by simp only [List.length_cons]; omega, ?_⟩
      simpa using h2
    | none =>
      rw [hm] at h
      by_cases hx : x = leaf
      · simp only [hx, if_pos rfl] at h
        have hi : i = 0 := by simpa using h.symm
        subst hi
        refine ⟨by simp, ?_⟩
        simp only [List.getD_cons_zero]
        exact hx
      · simp [hx] at h

theorem lastIdxAux_none :
    ∀ (l : List Bytes) (leaf : Bytes),
      lastIdxAux l leaf = none → leaf ∉ l
  | [], leaf, _ => by simp
  | x :: rest, leaf, h => by
    simp only [lastIdxAux] at h
    cases hm : lastIdxAux rest leaf with
    | some j => rw [hm] at h; simp at h
    | none =>
      rw [hm] at h
      by_cases hx : x = leaf
      · simp [hx] at h
      · have := lastIdxAux_none rest leaf hm
        simp only [List.mem_cons]
        intro hcon
        rcases hcon with hcon | hcon
        · exact hx hcon.symm
        · exact this hcon

theorem lastIdxAux_isSome_of_mem (l : List Bytes) (leaf : Bytes)
    (h : leaf ∈ l) : ∃ i, lastIdxAux l leaf = some i := by
  cases hm : lastIdxAux l leaf with
  | some i => exact ⟨i, rfl⟩
  | none => exact absurd h (lastIdxAux_none l leaf hm)

theorem idxOfAux_eq_none_iff :
    ∀ (l : List Bytes) (leaf : Bytes), idxOfAux l leaf = none ↔ leaf ∉ l
  | [], leaf => by simp [idxOfAux]
  | x :: rest, leaf => by
    simp only [idxOfAux]
    by_cases hx : x = leaf
    · simp [hx]
    · simp only [hx, if_false, Option.map_eq_none', List.mem_cons]
      rw [idxOfAux_eq_none_iff rest leaf]
      constructor
      · intro hn hcon
        rcases hcon with hcon | hcon
        · exact hx hcon.symm
        · exact hn hcon
      · intro hn
        intro hmem
        exact hn (Or.inr hmem)

/-- The scan predicate used by `generateProof` and `verifyProof` to pick the
containing tree is exactly leaf membership in the tree's stored leaves. -/
theorem getLeafIndex_ne_neg_one_iff (t : MerkleTreeM) (leaf : Bytes) :
    (t.getLeafIndex leaf != -1) = true ↔ leaf ∈ t.leaves := by
  unfold MerkleTreeM.getLeafIndex
  cases hm : idxOfAux t.leaves leaf with
  | some i =>
    simp only []
    constructor
    · intro _
      by_contra hnot
      rw [(idxOfAux_eq_none_iff t.leaves leaf).mpr hnot] at hm
      exact Option.noConfusion hm
    · intro _
      have : (i : Int) ≠ -1 := by omega
      exact bne_iff_ne.mpr this
  | none =>
    simp only [bne_self_eq_false, Bool.false_eq_true, false_iff]
    exact (idxOfAux_eq_none_iff t.leaves leaf).mp hm

/-- Round trip inside one merkletreejs tree: for any leaf actually stored in
the tree, folding the extracted sibling path reconstructs the root. -/
theorem tree_roundtrip (H : Bytes → Bytes) (leaves : List Bytes)
    (leaf : Bytes) (hmem : leaf ∈ (mkMerkleTree H leaves).leaves) :
    foldProof H leaf ((mkMerkleTree H leaves).getProof leaf)
      = (mkMerkleTree H leaves).getRoot := by
  obtain ⟨idx, hidx⟩ :=
    lastIdxAux_isSome_of_mem (mkMerkleTree H leaves).leaves leaf hmem
  have ⟨hlt, hval⟩ := lastIdxAux_some _ leaf idx hidx
  unfold MerkleTreeM.getProof
  rw [hidx]
  have hleaves : (mkMerkleTree H leaves).leaves = leaves.map bufferifyWA := rfl
  have hlayers : (mkMerkleTree H leaves).layers
      = (leaves.map bufferifyWA)
        :: buildAux H (leaves.map bufferifyWA).length (leaves.map bufferifyWA) := rfl
  rw [getRoot_eq_layersRoot, hlayers]
  rw [hleaves] at hlt hval
  rw [← hval]
  exact foldProof_proofLoop H (leaves.map bufferifyWA).length
    (leaves.map bufferifyWA) idx (Nat.le_refl _) hlt

/-- `Array.find` keeps the earliest hit: when every tree before `t` fails
the predicate and `t` satisfies it, the scan returns `t` no matter what
comes after. -/
theorem find?_earliest {α : Type} (p : α → Bool) :
    ∀ (ts1 : List α) (t : α) (ts2 : List α),
      (∀ u ∈ ts1, p u = false) → p t = true →
      List.find? p (ts1 ++ t :: ts2) = some t
  | [], t, ts2, _, hpt => by
    simpa using List.find?_cons_of_pos ts2 hpt
  | u :: ts1, t, ts2, hts1, hpt => by
    have hu : p u = false := hts1 u (by simp)
    have hrest := find?_earliest p ts1 t ts2
      (fun v hv => hts1 v (by simp [hv])) hpt
    simp only [List.cons_append]
    rw [List.find?_cons_of_neg _ (by simp [hu])]
    exact hrest

theorem generateProof_eq_of_find (H : Bytes → Bytes) (f : MerkleFactory)
    (h : BlockHeader) (t : MerkleTreeM)
    (hfind : f.merkleTrees.find? (fun u => u.getLeafIndex (leafBuf H h) != -1)
      = some t) :
    f.generateProof H h = t.getProof (leafBuf H h) := by
  show (match f.merkleTrees.find?
      (fun u => u.getLeafIndex (leafBuf H h) != -1) with
    | none => ([] : List ProofElem)
    | some u => u.getProof (leafBuf H h)) = t.getProof (leafBuf H h)
  rw [hfind]

theorem generateProof_eq_of_find_none (H : Bytes → Bytes) (f : MerkleFactory)
    (h : BlockHeader)
    (hfind : f.merkleTrees.find? (fun u => u.getLeafIndex (leafBuf H h) != -1)
      = none) :
    f.generateProof H h = [] := by
  show (match f.merkleTrees.find?
      (fun u => u.getLeafIndex (leafBuf H h) != -1) with
    | none => ([] : List ProofElem)
    | some u => u.getProof (leafBuf H h)) = []
  rw [hfind]

theorem verifyProof_eq_of_find (H : Bytes → Bytes) (f : MerkleFactory)
    (proof : List ProofElem) (h : BlockHeader) (t : MerkleTreeM)
    (hfind : f.merkleTrees.find? (fun u => u.getLeafIndex (leafBuf H h) != -1)
      = some t) :
    f.verifyProof H proof h = t.verify H proof (leafBuf H h) t.getRoot := by
  show (match f.merkleTrees.find?
      (fun u => u.getLeafIndex (leafBuf H h) != -1) with
    | none => false
    | some u => u.verify H proof (leafBuf H h) u.getRoot)
    = t.verify H proof (leafBuf H h) t.getRoot
  rw [hfind]

theorem verifyProof_eq_of_find_none (H : Bytes → Bytes) (f : MerkleFactory)
    (proof : List ProofElem) (h : BlockHeader)
    (hfind : f.merkleTrees.find? (fun u => u.getLeafIndex (leafBuf H h) != -1)
      = none) :
    f.verifyProof H proof h = false := by
  show (match f.merkleTrees.find?
      (fun u => u.getLeafIndex (leafBuf H h) != -1) with
    | none => false
    | some u => u.verify H proof (leafBuf H h) u.getRoot) = false
  rw [hfind]

theorem addHeader_mk_trigger (H : Bytes → Bytes) (b : Int)
    (buf : List BlockHeader) (ts : List MerkleTreeM) (h : BlockHeader)
    (hc : ((buf ++ [h]).length : Int) ≥ b) :
    MerkleFactory.addHeader H ⟨b, buf, ts⟩ h
      = ⟨b, [], ts ++ [treeOfBatch H (buf ++ [h])]⟩ := by
  have hc2 : b ≤ (buf.length : Int) + 1 := by
    simp only [List.length_append, List.length_cons, List.length_nil] at hc
    omega
  simp [MerkleFactory.addHeader, MerkleFactory.createMerkleTree, treeOfBatch,
    mkMerkleTree, hc2]

theorem addHeader_mk_no_trigger (H : Bytes → Bytes) (b : Int)
    (buf : List BlockHeader) (ts : List MerkleTreeM) (h : BlockHeader)
    (hc : ¬ ((buf ++ [h]).length : Int) ≥ b) :
    MerkleFactory.addHeader H ⟨b, buf, ts⟩ h = ⟨b, buf ++ [h], ts⟩ := by
  have hc2 : ¬ (b ≤ (buf.length : Int) + 1) := by
    simp only [List.length_append, List.length_cons, List.length_nil] at hc
    omega
  simp [MerkleFactory.addHeader, hc2]

/-- The callback loop, started from any reachable factory state (buffer
strictly below the batch size), lands exactly on the `accumulate` batching:
the registry gains one tree per full batch, in order, and the buffer holds
the final partial batch. -/
theorem foldl_addHeader_eq (H : Bytes → Bytes) (b : Int) (hb : 1 ≤ b) :
    ∀ (hs buf : List BlockHeader) (ts : List MerkleTreeM),
      buf.length < b.toNat →
      List.foldl (MerkleFactory.addHeader H) ⟨b, buf, ts⟩ hs
        = ⟨b, (accumulate b.toNat buf hs).2,
            ts ++ ((accumulate b.toNat buf hs).1).map (treeOfBatch H)⟩
  | [], buf, ts, hbuf => by simp [accumulate]
  | h :: rest, buf, ts, hbuf => by
    have hlen : (buf ++ [h]).length = buf.length + 1 := by simp
    rw [List.foldl_cons]
    by_cases hc : b.toNat ≤ (buf ++ [h]).length
    · have hc2 := hc
      rw [hlen] at hc2
      have hcInt : ((buf ++ [h]).length : Int) ≥ b := by
        rw [hlen]
        omega
      rw [addHeader_mk_trigger H b buf ts h hcInt]
      rw [foldl_addHeader_eq H b hb rest []
        (ts ++ [treeOfBatch H (buf ++ [h])]) (by simp only [List.length_nil]; omega)]
      have hacc : accumulate b.toNat buf (h :: rest)
          = ((buf ++ [h]) :: (accumulate b.toNat [] rest).1,
             (accumulate b.toNat [] rest).2) := by
        simp only [accumulate]
        rw [if_pos hc]
      rw [hacc]
      simp [List.append_assoc]
    · have hc2 := hc
      rw [hlen] at hc2
      rw [addHeader_mk_no_trigger H b buf ts h (by rw [hlen]; omega)]
      have hacc : accumulate b.toNat buf (h :: rest)
          = accumulate b.toNat (buf ++ [h]) rest := by
        simp only [accumulate]
        rw [if_neg hc]
      rw [hacc]
      exact foldl_addHeader_eq H b hb rest (buf ++ [h]) ts (by omega)

/-- Counting facts about the reference batching: starting below the batch
size, the number of full batches is the integer quotient, the final buffer
is the remainder, and every full batch has exactly `bn` headers. -/
theorem accumulate_spec (bn : Nat) (hbn : 0 < bn) :
    ∀ (hs buf : List BlockHeader), buf.length < bn →
      (accumulate bn buf hs).1.length = (buf.length + hs.length) / bn ∧
      (accumulate bn buf hs).2.length = (buf.length + hs.length) % bn ∧
      ∀ c ∈ (accumulate bn buf hs).1, c.length = bn
  | [], buf, hbuf => by
    simp only [accumulate, List.length_nil, Nat.add_zero]
    exact ⟨by rw [Nat.div_eq_of_lt hbuf],
      by rw [Nat.mod_eq_of_lt hbuf], by simp⟩
  | h :: rest, buf, hbuf => by
    have hlen : (buf ++ [h]).length = buf.length + 1 := by simp
    by_cases hc : bn ≤ (buf ++ [h]).length
    · have hfull : (buf ++ [h]).length = bn := by omega
      obtain ⟨ih1, ih2, ih3⟩ :=
        accumulate_spec bn hbn rest [] (by simp only [List.length_nil]; omega)
      have hacc : accumulate bn buf (h :: rest)
          = ((buf ++ [h]) :: (accumulate bn [] rest).1,
             (accumulate bn [] rest).2) := by
        simp only [accumulate]
        rw [if_pos hc]
      rw [hacc]
      simp only [List.length_nil, Nat.zero_add] at ih1 ih2
      refine ⟨?_, ?_, ?_⟩
      · simp only [List.length_cons, ih1]
        have e : buf.length + (rest.length + 1) = rest.length + bn := by omega
        rw [e, Nat.add_div_right _ hbn]
      · simp only [ih2, List.length_cons]
        have e : buf.length + (rest.length + 1) = rest.length + bn := by omega
        rw [e, Nat.add_mod_right]
      · intro c hcmem
        rcases List.mem_cons.mp hcmem with hcmem | hcmem
        · rw [hcmem]
          exact hfull
        · exact ih3 c hcmem
    · obtain ⟨ih1, ih2, ih3⟩ :=
        accumulate_spec bn hbn rest (buf ++ [h]) (by omega)
      have hacc : accumulate bn buf (h :: rest)
          = accumulate bn (buf ++ [h]) rest := by
        simp only [accumulate]
        rw [if_neg hc]
      rw [hacc]
      have e : (buf ++ [h]).length + rest.length
          = buf.length + (h :: rest).length := by
        simp only [List.length_append, List.length_cons, List.length_nil]
        omega
      rw [e] at ih1 ih2
      exact ⟨ih1, ih2, ih3⟩

/-- A concrete executable digest used to instantiate the hash parameter `H`
in witnesses and counterexamples (one-byte output; any function of type
`Bytes → Bytes`, such as real SHA-256, is an admissible instance of every
parametric theorem above). -/
def toyHash (bs : Bytes) : Bytes :=
  [bs.foldl (fun a b => (a * 31 + b + 1) % 251) 7]

/-- Sample headers for witnesses (shapes follow the commented sample data in
`src/index.ts`; field values shortened). -/
def hA : BlockHeader :=
  { number := 1, hash := "a", parentHash := "p1", stateRoot := "s1",
    extrinsicsRoot := "e1" }

def hB : BlockHeader :=
  { number := 2, hash := "b", parentHash := "p2", stateRoot := "s2",
    extrinsicsRoot := "e2" }

def hC : BlockHeader :=
  { number := 3, hash := "c", parentHash := "p3", stateRoot := "s3",
    extrinsicsRoot := "e3" }

def hD : BlockHeader :=
  { number := 4, hash := "d", parentHash := "p4", stateRoot := "s4",
    extrinsicsRoot := "e4" }

/-- A header resubmitted with the same `hash` as `hA` but different
remaining fields. -/
def hDupA : BlockHeader :=
  { number := 9, hash := "a", parentHash := "p9", stateRoot := "s9",
    extrinsicsRoot := "e9" }

/-- Modelled from the spec's words (§4.2 step 2): "If the level has an odd
count, duplicate the final node to pair with itself" — the claimed
duplication policy, for comparison against the program's `nextLevel`. -/
def nextLevelDupSpec (H : Bytes → Bytes) : List Bytes → List Bytes
  | [] => []
  | [x] => [hashPair H x x]
  | x :: y :: rest => hashPair H x y :: nextLevelDupSpec H rest

/-- The layer stack the spec's duplication policy would produce. -/
def buildAuxDupSpec (H : Bytes → Bytes) : Nat → List Bytes → List (List Bytes)
  | 0, _ => []
  | fuel + 1, nodes =>
    if nodes.length ≤ 1 then []
    else nextLevelDupSpec H nodes :: buildAuxDupSpec H fuel (nextLevelDupSpec H nodes)

/-- The tree the spec's duplication policy would build. -/
def mkMerkleTreeDupSpec (H : Bytes → Bytes) (leaves : List Bytes) :
    MerkleTreeM :=
  let bl := leaves.map bufferifyWA
  { leaves := bl, layers := bl :: buildAuxDupSpec H bl.length bl }

/-- A one-leaf constructed tree yields the structurally empty proof for its
own leaf: the single layer has no sibling at index 1. -/
theorem getProof_singleton (H : Bytes → Bytes) (wa : Bytes) :
    (mkMerkleTree H [wa]).getProof (bufferifyWA wa) = [] := by
  have hleaves : (mkMerkleTree H [wa]).leaves = [bufferifyWA wa] := rfl
  have hlayers : (mkMerkleTree H [wa]).layers = [[bufferifyWA wa]] := rfl
  unfold MerkleTreeM.getProof
  rw [hleaves, hlayers]
  have hlast : lastIdxAux [bufferifyWA wa] (bufferifyWA wa) = some 0 := by
    simp [lastIdxAux]
  rw [hlast]
  simp [proofLoop]

/-- A one-leaf constructed tree's root is the leaf buffer itself. -/
theorem getRoot_singleton (H : Bytes → Bytes) (wa : Bytes) :
    (mkMerkleTree H [wa]).getRoot = bufferifyWA wa := rfl

/-- C1 (claims C1): for every header `h` committed into a finalized,
registered tree — `h` belongs to one of the full batches of `batchSize`
headers that triggered tree construction during the run — verifying the
generated proof for `h` returns `true`. -/
theorem C1_roundtrip_committed (H : Bytes → Bytes) (b : Int)
    (hs : List BlockHeader) (h : BlockHeader) (c : List BlockHeader)
    (hb : 1 ≤ b) (hcmem : c ∈ (accumulate b.toNat [] hs).1) (hh : h ∈ c) :
    (runFactory H b hs).verifyProof H
      ((runFactory H b hs).generateProof H h) h = true := by
  have hrun : runFactory H b hs
      = ⟨b, (accumulate b.toNat [] hs).2,
          ((accumulate b.toNat [] hs).1).map (treeOfBatch H)⟩ := by
    have hf := foldl_addHeader_eq H b hb hs [] []
      (by simp only [List.length_nil]; omega)
    simpa [runFactory, MerkleFactory.construct] using hf
  have hleafmem : leafBuf H h ∈ (treeOfBatch H c).leaves := by
    show leafBuf H h ∈ (c.map (leafWA H)).map bufferifyWA
    exact List.mem_map.mpr ⟨leafWA H h, List.mem_map.mpr ⟨h, hh, rfl⟩, rfl⟩
  have hpred : ((treeOfBatch H c).getLeafIndex (leafBuf H h) != -1) = true :=
    (getLeafIndex_ne_neg_one_iff _ _).mpr hleafmem
  have htmem : treeOfBatch H c ∈ (runFactory H b hs).merkleTrees := by
    rw [hrun]
    exact List.mem_map.mpr ⟨c, hcmem, rfl⟩
  obtain ⟨t, hfind⟩ : ∃ t, (runFactory H b hs).merkleTrees.find?
      (fun u => u.getLeafIndex (leafBuf H h) != -1) = some t := by
    cases hf : (runFactory H b hs).merkleTrees.find?
        (fun u => u.getLeafIndex (leafBuf H h) != -1) with
    | some t => exact ⟨t, rfl⟩
    | none =>
      have hnone := List.find?_eq_none.mp hf (treeOfBatch H c) htmem
      exact absurd hpred hnone
  have hpt : (t.getLeafIndex (leafBuf H h) != -1) = true := by
    have hx := List.find?_some hfind
    exact hx
  have htmem2 : t ∈ (runFactory H b hs).merkleTrees :=
    List.mem_of_find?_eq_some hfind
  rw [hrun] at htmem2
  obtain ⟨c2, hc2mem, hc2eq⟩ := List.mem_map.mp htmem2
  have hleafmem2 : leafBuf H h ∈ t.leaves :=
    (getLeafIndex_ne_neg_one_iff _ _).mp hpt
  have hfold : foldProof H (leafBuf H h) (t.getProof (leafBuf H h))
      = t.getRoot := by
    rw [← hc2eq] at hleafmem2 ⊢
    exact tree_roundtrip H (c2.map (leafWA H)) (leafBuf H h) hleafmem2
  rw [generateProof_eq_of_find H _ h t hfind,
      verifyProof_eq_of_find H _ _ h t hfind]
  simp [MerkleTreeM.verify, hfold]

theorem C1_roundtrip_committed_witness :
    (runFactory toyHash 2 [hA, hB, hC]).verifyProof toyHash
      ((runFactory toyHash 2 [hA, hB, hC]).generateProof toyHash hA) hA
      = true :=
  C1_roundtrip_committed toyHash 2 [hA, hB, hC] hA [hA, hB] (by decide)
    (by decide) (by decide)

/-- C2 counterexample (claims C2): at the concrete three-leaf input
`[[0], [1], [2]]` with the concrete digest `toyHash`, the tree the program
builds differs from the tree the claimed duplicate-the-final-node policy
would build — already at the first level above the leaves, where the
program carries `[2]` up unchanged instead of pairing it with itself — so
the duplication policy is not what tree construction applies. -/
theorem C2_duplication_counterexample :
    nextLevel toyHash [[0], [1], [2]]
        ≠ nextLevelDupSpec toyHash [[0], [1], [2]] ∧
    (mkMerkleTree toyHash [[0], [1], [2]]).getRoot
        ≠ (mkMerkleTreeDupSpec toyHash [[0], [1], [2]]).getRoot := by
  decide

/-- C2 amended (claims C2): tree construction pairs nodes left-to-right at
every level — index `k` of the next level is the pair hash of nodes `2k`
and `2k+1` — and whenever a level has an odd number of nodes, the final
node is carried up to the next level unchanged (merkletreejs
`duplicateOdd = false`), not duplicated; the carried policy is what both
construction and proof verification use (the verification side is the
round-trip `C1_roundtrip_committed`, whose proofs skip exactly the carried
levels). -/
theorem C2_pairing_carry_amended (H : Bytes → Bytes) (l : List Bytes)
    (k : Nat) (hk : 2 * k < l.length) :
    (nextLevel H l).getD k [] =
      if 2 * k + 1 < l.length then
        hashPair H (l.getD (2 * k) []) (l.getD (2 * k + 1) [])
      else l.getD (2 * k) [] :=
  nextLevel_getD H l k hk

theorem C2_pairing_carry_amended_witness :
    (nextLevel toyHash [[0], [1], [2]]).getD 1 [] =
      if 2 * 1 + 1 < ([[0], [1], [2]] : List Bytes).length then
        hashPair toyHash (([[0], [1], [2]] : List Bytes).getD (2 * 1) [])
          (([[0], [1], [2]] : List Bytes).getD (2 * 1 + 1) [])
      else ([[0], [1], [2]] : List Bytes).getD (2 * 1) [] :=
  C2_pairing_carry_amended toyHash [[0], [1], [2]] 1 (by decide)

/-- C3 counterexample (claims C3): `generateProof` returns a plain array,
not a tagged result.  With `batchSize = 1`, header `hA` is committed into a
registered one-leaf tree and its proof verifies, while `hB` is absent from
every registered tree — yet `generateProof` returns the very same value
(the empty array) for both, so the committed-with-empty-proof outcome is
not distinguishable from the not-found outcome. -/
theorem C3_tagged_result_counterexample :
    (runFactory toyHash 1 [hA]).generateProof toyHash hA
        = (runFactory toyHash 1 [hA]).generateProof toyHash hB ∧
    (runFactory toyHash 1 [hA]).verifyProof toyHash
        ((runFactory toyHash 1 [hA]).generateProof toyHash hA) hA = true ∧
    (∀ t ∈ (runFactory toyHash 1 [hA]).merkleTrees,
        leafBuf toyHash hB ∉ t.leaves) := by
  decide

/-- C3 amended (claims C3): `generateProof` returns an untagged array and
signals absence by the empty array.  For a header contained in a registered
one-leaf tree the result is the structurally empty proof, which is valid
(it verifies, the root being the leaf digest itself), and for a header
absent from every registered tree the result is the same empty array — the
two outcomes are equal values, not distinguishable ones. -/
theorem C3_empty_signals_absence_amended (H : Bytes → Bytes)
    (f : MerkleFactory) (h habs : BlockHeader) (t : MerkleTreeM)
    (hfind : f.merkleTrees.find?
      (fun u => u.getLeafIndex (leafBuf H h) != -1) = some t)
    (ht : t = mkMerkleTree H [leafWA H h])
    (hno : ∀ u ∈ f.merkleTrees, leafBuf H habs ∉ u.leaves) :
    f.generateProof H h = [] ∧
    f.verifyProof H (f.generateProof H h) h = true ∧
    f.generateProof H habs = [] := by
  subst ht
  have hleaf : leafBuf H h = bufferifyWA (leafWA H h) := rfl
  have hgen : f.generateProof H h = [] := by
    rw [generateProof_eq_of_find H f h _ hfind, hleaf, getProof_singleton]
  have hfnone : f.merkleTrees.find?
      (fun u => u.getLeafIndex (leafBuf H habs) != -1) = none := by
    refine List.find?_eq_none.mpr ?_
    intro u hu
    intro hcon
    exact hno u hu ((getLeafIndex_ne_neg_one_iff u (leafBuf H habs)).mp hcon)
  refine ⟨hgen, ?_, generateProof_eq_of_find_none H f habs hfnone⟩
  rw [hgen, verifyProof_eq_of_find H f [] h _ hfind]
  show decide (foldProof H (leafBuf H h) []
    = (mkMerkleTree H [leafWA H h]).getRoot) = true
  rw [getRoot_singleton]
  simp [foldProof, hleaf]

theorem C3_empty_signals_absence_amended_witness :
    (runFactory toyHash 1 [hA]).generateProof toyHash hA = [] ∧
    (runFactory toyHash 1 [hA]).verifyProof toyHash
      ((runFactory toyHash 1 [hA]).generateProof toyHash hA) hA = true ∧
    (runFactory toyHash 1 [hA]).generateProof toyHash hB = [] :=
  C3_empty_signals_absence_amended toyHash (runFactory toyHash 1 [hA]) hA hB
    (mkMerkleTree toyHash [leafWA toyHash hA]) (by decide) rfl (by decide)

/-- C4 counterexample (claims C4): the `MerkleFactory` constructor performs
no validation whatsoever.  An instance with `batchSize = -3` (and with
`batchSize = 0`) is constructed without any error, and the zero-batch
instance is even operational: its first `addHeader` call immediately
registers a tree. -/
theorem C4_rejection_counterexample :
    (MerkleFactory.construct (-3)).batchSize = -3 ∧
    (MerkleFactory.construct 0).batchSize = 0 ∧
    ((MerkleFactory.construct 0).addHeader toyHash hA).merkleTrees.length
      = 1 := by
  decide

/-- C4 amended (claims C4): an invalid `batchSize` (zero or negative) is
accepted at construction time — the constructor stores it verbatim and
performs no validation, so instances with `batchSize ≤ 0` exist and are
operational (every `addHeader` call on such an instance immediately
triggers tree construction, since the one-element buffer already reaches
the non-positive threshold). -/
theorem C4_no_validation_amended (H : Bytes → Bytes) (b : Int)
    (hb : b ≤ 0) (h : BlockHeader) :
    (MerkleFactory.construct b).batchSize = b ∧
    ((MerkleFactory.construct b).addHeader H h).merkleTrees
      = [treeOfBatch H [h]] := by
  refine ⟨rfl, ?_⟩
  have htr := addHeader_mk_trigger H b [] [] h
    (by simp only [List.nil_append, List.length_cons, List.length_nil]; omega)
  show (MerkleFactory.addHeader H ⟨b, [], []⟩ h).merkleTrees = [treeOfBatch H [h]]
  rw [htr]
  simp

theorem C4_no_validation_amended_witness :
    (MerkleFactory.construct (-3)).batchSize = -3 ∧
    ((MerkleFactory.construct (-3)).addHeader toyHash hA).merkleTrees
      = [treeOfBatch toyHash [hA]] :=
  C4_no_validation_amended toyHash (-3) (by decide) hA

/-- C5 (claims C5): for a header whose leaf value is contained in no
registered tree, `generateProof` returns the program's not-found result
(the empty array) and `verifyProof` returns `false` for every proof. -/
theorem C5_not_committed (H : Bytes → Bytes) (f : MerkleFactory)
    (h : BlockHeader)
    (habs : ∀ t ∈ f.merkleTrees, leafBuf H h ∉ t.leaves) :
    f.generateProof H h = [] ∧
    ∀ p : List ProofElem, f.verifyProof H p h = false := by
  have hfnone : f.merkleTrees.find?
      (fun u => u.getLeafIndex (leafBuf H h) != -1) = none := by
    refine List.find?_eq_none.mpr ?_
    intro u hu hcon
    exact habs u hu ((getLeafIndex_ne_neg_one_iff u (leafBuf H h)).mp hcon)
  exact ⟨generateProof_eq_of_find_none H f h hfnone,
    fun p => verifyProof_eq_of_find_none H f p h hfnone⟩

theorem C5_not_committed_witness :
    (runFactory toyHash 2 [hA, hB]).generateProof toyHash hC = [] ∧
    (runFactory toyHash 2 [hA, hB]).verifyProof toyHash
      [{ position := Side.left, data := [1] }] hC = false :=
  ⟨(C5_not_committed toyHash (runFactory toyHash 2 [hA, hB]) hC (by decide)).1,
   (C5_not_committed toyHash (runFactory toyHash 2 [hA, hB]) hC (by decide)).2
     [{ position := Side.left, data := [1] }]⟩

/-- C6 (claims C6): for every `batchSize ≥ 1` and every input stream, a
tree is registered exactly on every `batchSize`-th header — after `n` calls
there are exactly `n / batchSize` registered trees — and the working buffer
holds exactly `n % batchSize` headers, hence always strictly fewer than
`batchSize` (the bound holds after every prefix of calls since the stream
is universally quantified). -/
theorem C6_batch_counts (H : Bytes → Bytes) (b : Int) (hs : List BlockHeader)
    (hb : 1 ≤ b) :
    (runFactory H b hs).merkleTrees.length = hs.length / b.toNat ∧
    (runFactory H b hs).headers.length = hs.length % b.toNat ∧
    (runFactory H b hs).headers.length < b.toNat := by
  have hbn : 0 < b.toNat := by omega
  have hrun : runFactory H b hs
      = ⟨b, (accumulate b.toNat [] hs).2,
          ((accumulate b.toNat [] hs).1).map (treeOfBatch H)⟩ := by
    have hf := foldl_addHeader_eq H b hb hs [] []
      (by simp only [List.length_nil]; omega)
    simpa [runFactory, MerkleFactory.construct] using hf
  obtain ⟨h1, h2, _⟩ := accumulate_spec b.toNat hbn hs []
    (by simp only [List.length_nil]; omega)
  rw [hrun]
  refine ⟨?_, ?_, ?_⟩
  · show (((accumulate b.toNat [] hs).1).map (treeOfBatch H)).length
        = hs.length / b.toNat
    rw [List.length_map]
    simpa using h1
  · show (accumulate b.toNat [] hs).2.length = hs.length % b.toNat
    simpa using h2
  · show (accumulate b.toNat [] hs).2.length < b.toNat
    have h2s : (accumulate b.toNat [] hs).2.length = hs.length % b.toNat := by
      simpa using h2
    rw [h2s]
    exact Nat.mod_lt _ hbn

theorem C6_batch_counts_witness :
    (runFactory toyHash 2 [hA, hB, hC]).merkleTrees.length
      = ([hA, hB, hC] : List BlockHeader).length / (2 : Int).toNat ∧
    (runFactory toyHash 2 [hA, hB, hC]).headers.length
      = ([hA, hB, hC] : List BlockHeader).length % (2 : Int).toNat ∧
    (runFactory toyHash 2 [hA, hB, hC]).headers.length < (2 : Int).toNat :=
  C6_batch_counts toyHash 2 [hA, hB, hC] (by decide)

/-- C7 (claims C7): when the same leaf value occurs in several registered
trees, the containing-tree lookup shared by `generateProof` and
`verifyProof` resolves to the earliest-registered such tree only:
whatever trees follow it in the registry (`ts2`, which may contain the
leaf again), the scan returns `t`, the generated proof is `t`'s proof, and
verification of that proof runs against `t`'s root. -/
theorem C7_earliest_tree (H : Bytes → Bytes) (f : MerkleFactory)
    (h : BlockHeader) (ts1 ts2 : List MerkleTreeM) (t : MerkleTreeM)
    (hsplit : f.merkleTrees = ts1 ++ t :: ts2)
    (hbefore : ∀ u ∈ ts1, leafBuf H h ∉ u.leaves)
    (hin : leafBuf H h ∈ t.leaves) :
    f.merkleTrees.find? (fun u => u.getLeafIndex (leafBuf H h) != -1)
      = some t ∧
    f.generateProof H h = t.getProof (leafBuf H h) ∧
    f.verifyProof H (f.generateProof H h) h
      = t.verify H (t.getProof (leafBuf H h)) (leafBuf H h) t.getRoot := by
  have hfind : f.merkleTrees.find?
      (fun u => u.getLeafIndex (leafBuf H h) != -1) = some t := by
    rw [hsplit]
    refine find?_earliest _ ts1 t ts2 ?_ ?_
    · intro u hu
      have hn : ¬ ((u.getLeafIndex (leafBuf H h) != -1) = true) := fun hcon =>
        hbefore u hu ((getLeafIndex_ne_neg_one_iff u _).mp hcon)
      exact Bool.eq_false_iff.mpr hn
    · exact (getLeafIndex_ne_neg_one_iff t _).mpr hin
  have hgen := generateProof_eq_of_find H f h t hfind
  refine ⟨hfind, hgen, ?_⟩
  rw [hgen]
  exact verifyProof_eq_of_find H f _ h t hfind

theorem C7_earliest_tree_witness :
    (runFactory toyHash 1 [hA, hDupA]).merkleTrees.find?
        (fun u => u.getLeafIndex (leafBuf toyHash hA) != -1)
      = some (mkMerkleTree toyHash [leafWA toyHash hA]) ∧
    (runFactory toyHash 1 [hA, hDupA]).generateProof toyHash hA
      = (mkMerkleTree toyHash [leafWA toyHash hA]).getProof
          (leafBuf toyHash hA) ∧
    (runFactory toyHash 1 [hA, hDupA]).verifyProof toyHash
        ((runFactory toyHash 1 [hA, hDupA]).generateProof toyHash hA) hA
      = (mkMerkleTree toyHash [leafWA toyHash hA]).verify toyHash
          ((mkMerkleTree toyHash [leafWA toyHash hA]).getProof
            (leafBuf toyHash hA))
          (leafBuf toyHash hA)
          (mkMerkleTree toyHash [leafWA toyHash hA]).getRoot :=
  C7_earliest_tree toyHash (runFactory toyHash 1 [hA, hDupA]) hA []
    [mkMerkleTree toyHash [leafWA toyHash hDupA]]
    (mkMerkleTree toyHash [leafWA toyHash hA])
    (by decide) (by decide) (by decide)

/-- C8 (claims C8): for every `batchSize ≥ 1`, the registered trees are
exactly the trees of the successive full batches, in order; each such
tree's level-0 leaves are the digests of its batch headers' `hash` string
fields in arrival order, so each registered tree has exactly `batchSize`
leaves; and the leaf digest depends only on the `hash` field, not on the
rest of the header. -/
theorem C8_tree_leaves (H : Bytes → Bytes) (b : Int) (hs : List BlockHeader)
    (hb : 1 ≤ b) :
    (runFactory H b hs).merkleTrees
        = ((accumulate b.toNat [] hs).1).map (treeOfBatch H) ∧
    (∀ c ∈ (accumulate b.toNat [] hs).1,
        (treeOfBatch H c).leaves = c.map (fun h => leafWA H h) ∧
        (treeOfBatch H c).leaves.length = b.toNat) ∧
    ∀ h1 h2 : BlockHeader, h1.hash = h2.hash → leafWA H h1 = leafWA H h2 := by
  have hbn : 0 < b.toNat := by omega
  have hrun : runFactory H b hs
      = ⟨b, (accumulate b.toNat [] hs).2,
          ((accumulate b.toNat [] hs).1).map (treeOfBatch H)⟩ := by
    have hf := foldl_addHeader_eq H b hb hs [] []
      (by simp only [List.length_nil]; omega)
    simpa [runFactory, MerkleFactory.construct] using hf
  obtain ⟨_, _, h3⟩ := accumulate_spec b.toNat hbn hs []
    (by simp only [List.length_nil]; omega)
  refine ⟨by rw [hrun], ?_, ?_⟩
  · intro c hc
    have hleq : (treeOfBatch H c).leaves = c.map (fun h => leafWA H h) := by
      show (c.map (leafWA H)).map bufferifyWA = c.map (fun h => leafWA H h)
      rw [List.map_map]
      exact List.map_congr_left (fun a _ => bufferifyWA_eq _)
    refine ⟨hleq, ?_⟩
    rw [hleq, List.length_map]
    exact h3 c hc
  · intro h1 h2 hh
    show H (strBytes h1.hash) = H (strBytes h2.hash)
    rw [hh]

theorem C8_tree_leaves_witness :
    (runFactory toyHash 2 [hA, hB, hC]).merkleTrees
        = ((accumulate (2 : Int).toNat [] [hA, hB, hC]).1).map
            (treeOfBatch toyHash) ∧
    (treeOfBatch toyHash [hA, hB]).leaves
        = [hA, hB].map (fun h => leafWA toyHash h) ∧
    (treeOfBatch toyHash [hA, hB]).leaves.length = (2 : Int).toNat ∧
    leafWA toyHash hA = leafWA toyHash hDupA :=
  ⟨(C8_tree_leaves toyHash 2 [hA, hB, hC] (by decide)).1,
   ((C8_tree_leaves toyHash 2 [hA, hB, hC] (by decide)).2.1
     [hA, hB] (by decide)).1,
   ((C8_tree_leaves toyHash 2 [hA, hB, hC] (by decide)).2.1
     [hA, hB] (by decide)).2,
   (C8_tree_leaves toyHash 2 [hA, hB, hC] (by decide)).2.2 hA hDupA
     (by decide)⟩

/-- C9 (claims C9): tree construction is a pure deterministic function of
the ordered leaf sequence — two construction runs over equal ordered leaf
sequences produce equal trees, in particular equal roots (in this
embedding `mkMerkleTree` is a mathematical function of its leaf-list
argument alone, so determinism is exactly this congruence). -/
theorem C9_deterministic_root (H : Bytes → Bytes) (l1 l2 : List Bytes)
    (h : l1 = l2) :
    (mkMerkleTree H l1).getRoot = (mkMerkleTree H l2).getRoot ∧
    mkMerkleTree H l1 = mkMerkleTree H l2 := by
  subst h
  exact ⟨rfl, rfl⟩

theorem C9_deterministic_root_witness :
    (mkMerkleTree toyHash [[0], [1]]).getRoot
      = (mkMerkleTree toyHash [[0], [1]]).getRoot ∧
    mkMerkleTree toyHash [[0], [1]] = mkMerkleTree toyHash [[0], [1]] :=
  C9_deterministic_root toyHash [[0], [1]] [[0], [1]] rfl

/-- C10 (claims C10): the leaf buffer recomputed at proof time
(`Buffer.from(SHA256(h.hash).toString(hex), 'hex')`) is byte-identical to
the leaf the builder stored at construction time (the bufferified
`SHA256(h.hash)` WordArray) — the hex encode/decode round trip is the
identity — so for a header of a built batch the proof-time leaf is among
the stored leaves and `getLeafIndex` finds it. -/
theorem C10_leaf_paths_agree (H : Bytes → Bytes) (h : BlockHeader)
    (c : List BlockHeader) (hh : h ∈ c) :
    leafBuf H h = bufferifyWA (leafWA H h) ∧
    leafBuf H h = leafWA H h ∧
    leafBuf H h ∈ (treeOfBatch H c).leaves ∧
    ((treeOfBatch H c).getLeafIndex (leafBuf H h) != -1) = true := by
  have h2 : leafBuf H h = leafWA H h := bufferifyWA_eq _
  have hm : leafBuf H h ∈ (treeOfBatch H c).leaves := by
    show leafBuf H h ∈ (c.map (leafWA H)).map bufferifyWA
    exact List.mem_map.mpr ⟨leafWA H h, List.mem_map.mpr ⟨h, hh, rfl⟩, rfl⟩
  exact ⟨rfl, h2, hm, (getLeafIndex_ne_neg_one_iff _ _).mpr hm⟩

theorem C10_leaf_paths_agree_witness :
    leafBuf toyHash hA = bufferifyWA (leafWA toyHash hA) ∧
    leafBuf toyHash hA = leafWA toyHash hA ∧
    leafBuf toyHash hA ∈ (treeOfBatch toyHash [hA, hB]).leaves ∧
    ((treeOfBatch toyHash [hA, hB]).getLeafIndex (leafBuf toyHash hA) != -1)
      = true :=
  C10_leaf_paths_agree toyHash hA [hA, hB] (by decide)
